import Mathlib

/-!
Verification development for the pg_waldecoder WAL mining engine.

The definitions below are a shallow embedding of the Rust sources:
machine integers (u32, u64) are modelled as `Nat` with explicit `% 2 ^ w`
wrapping where the Rust code can wrap, strings as `List Char`, fallible
functions as `Option`/`Except`-style results, and Rust panics as explicit
`crash` constructors.  Code that lives outside this repository (the
postgres xlogreader record assembler, the catalog lookup and the
byte-level page-image restore) is modelled from the specification at its
interface, and is marked as such in its doc comment.
-/

set_option maxRecDepth 4000

namespace PgWalDecoder

/-! ## Hexadecimal digits, parsing and formatting

Models Rust's `u64::from_str_radix(s, 16)` and the `{:X}` / `{:08X}`
formatters used by `src/pg_lsn.rs` and `src/lsn.rs`. -/

def U32_MOD : Nat := 2 ^ 32

def U64_MOD : Nat := 2 ^ 64

/-- Value of an ASCII hex digit, `none` for any other character
(the digit set accepted by `from_str_radix(_, 16)`). -/
def hexDigitVal (c : Char) : Option Nat :=
  if '0' ≤ c ∧ c ≤ '9' then some (c.toNat - '0'.toNat)
  else if 'a' ≤ c ∧ c ≤ 'f' then some (c.toNat - 'a'.toNat + 10)
  else if 'A' ≤ c ∧ c ≤ 'F' then some (c.toNat - 'A'.toNat + 10)
  else none

/-- Embeds `char::is_ascii_hexdigit`, used by `wal.rs` file-name validation. -/
def isAsciiHexdigit (c : Char) : Bool := (hexDigitVal c).isSome

/-- Accumulating hex-digit parser: the digit loop inside `from_str_radix`. -/
def hexAccum : Nat → List Char → Option Nat
  | acc, [] => some acc
  | acc, c :: cs =>
    match hexDigitVal c with
    | some d => hexAccum (16 * acc + d) cs
    | none => none

/-- Digit part of `u64::from_str_radix(_, 16)`: a nonempty run of hex digits
whose value fits in a u64 (the per-step checked arithmetic of the Rust
implementation rejects exactly the strings whose value reaches `2 ^ 64`,
since the accumulator is monotone). -/
def parseHexDigitsU64 (ds : List Char) : Option Nat :=
  if ds = [] then none
  else
    match hexAccum 0 ds with
    | some v => if v < U64_MOD then some v else none
    | none => none

/-- Embeds `u64::from_str_radix(s, 16)`: an optional sign followed by hex
digits; any error kind (empty, invalid digit, overflow) collapses to `none`. -/
def parseHexU64 (s : List Char) : Option Nat :=
  match s with
  | [] => none
  | c :: cs =>
    if c = '+' then parseHexDigitsU64 cs
    else if c = '-' then
      -- unsigned parse of a negated number succeeds only for value zero
      if cs = [] then none
      else
        match hexAccum 0 cs with
        | some 0 => some 0
        | _ => none
    else parseHexDigitsU64 (c :: cs)

/-- Uppercase hex digit table of Rust's `{:X}` formatter (input is 0..15). -/
def hexDigitChar (n : Nat) : Char :=
  match n with
  | 0 => '0' | 1 => '1' | 2 => '2' | 3 => '3' | 4 => '4' | 5 => '5' | 6 => '6' | 7 => '7'
  | 8 => '8' | 9 => '9' | 10 => 'A' | 11 => 'B' | 12 => 'C' | 13 => 'D' | 14 => 'E'
  | _ => 'F'

/-- Digit loop of Rust's `{:X}` formatting, with an explicit recursion bound
(any bound above the input works; `natToHexUpper` supplies one). -/
def natToHexAux : Nat → Nat → List Char
  | 0, _ => []
  | fuel + 1, n =>
    if n < 16 then [hexDigitChar n]
    else natToHexAux fuel (n / 16) ++ [hexDigitChar (n % 16)]

/-- Embeds Rust's `{:X}` formatting of a nonnegative integer: most significant
digit first, no padding, `"0"` for zero. -/
def natToHexUpper (n : Nat) : List Char := natToHexAux (n + 1) n

theorem natToHexAux_fuel : ∀ {n fuel : Nat}, n < fuel →
    natToHexAux fuel n = natToHexUpper n := by
  intro n
  induction n using Nat.strong_induction_on with
  | _ n ih =>
    intro fuel hf
    match fuel with
    | f + 1 =>
      show natToHexAux (f + 1) n = natToHexAux (n + 1) n
      simp only [natToHexAux]
      split
      · rfl
      · next hn =>
        have hdiv : n / 16 < n := Nat.div_lt_self (by omega) (by omega)
        rw [ih (n / 16) hdiv (by omega), ih (n / 16) hdiv (by omega)]

/-- Unfolding equation for `natToHexUpper`. -/
theorem natToHexUpper_eq (n : Nat) :
    natToHexUpper n =
      if n < 16 then [hexDigitChar n]
      else natToHexUpper (n / 16) ++ [hexDigitChar (n % 16)] := by
  show natToHexAux (n + 1) n = _
  simp only [natToHexAux]
  split
  · rfl
  · next hn =>
    rw [natToHexAux_fuel (by omega)]

/-- Embeds Rust's `{:08X}` formatting: zero-padded to at least 8 digits. -/
def pad8Hex (n : Nat) : List Char :=
  List.replicate (8 - (natToHexUpper n).length) '0' ++ natToHexUpper n

/-! ### Laws of the hex digit functions -/

theorem hexDigitVal_hexDigitChar {d : Nat} (h : d < 16) :
    hexDigitVal (hexDigitChar d) = some d := by
  interval_cases d <;> decide

theorem hexDigitChar_ne_slash {d : Nat} (h : d < 16) : hexDigitChar d ≠ '/' := by
  interval_cases d <;> decide

theorem hexDigitChar_ne_plus {d : Nat} (h : d < 16) : hexDigitChar d ≠ '+' := by
  interval_cases d <;> decide

theorem hexDigitChar_ne_minus {d : Nat} (h : d < 16) : hexDigitChar d ≠ '-' := by
  interval_cases d <;> decide

theorem natToHexUpper_ne_nil (n : Nat) : natToHexUpper n ≠ [] := by
  rw [natToHexUpper_eq]
  split
  · simp
  · simp

theorem mem_natToHexUpper (n : Nat) :
    ∀ c ∈ natToHexUpper n, ∃ d, d < 16 ∧ c = hexDigitChar d := by
  induction n using Nat.strong_induction_on with
  | _ n ih =>
    rw [natToHexUpper_eq]
    split
    · intro c hc
      simp only [List.mem_singleton] at hc
      exact ⟨n, by omega, hc⟩
    · intro c hc
      rcases List.mem_append.mp hc with h | h
      · exact ih (n / 16) (Nat.div_lt_self (by omega) (by omega)) c h
      · simp only [List.mem_singleton] at h
        exact ⟨n % 16, Nat.mod_lt _ (by omega), h⟩

theorem hexAccum_append (acc : Nat) (xs ys : List Char) :
    hexAccum acc (xs ++ ys) =
      match hexAccum acc xs with
      | some v => hexAccum v ys
      | none => none := by
  induction xs generalizing acc with
  | nil => simp [hexAccum]
  | cons c cs ih =>
    simp only [List.cons_append, hexAccum]
    cases hexDigitVal c with
    | some d => exact ih (16 * acc + d)
    | none => rfl

theorem hexAccum_natToHexUpper (n : Nat) : ∀ acc,
    hexAccum acc (natToHexUpper n) = some (acc * 16 ^ (natToHexUpper n).length + n) := by
  induction n using Nat.strong_induction_on with
  | _ n ih =>
    intro acc
    rw [natToHexUpper_eq]
    split
    · next h =>
      simp [hexAccum, hexDigitVal_hexDigitChar h]
      omega
    · next h =>
      rw [hexAccum_append]
      have hdiv : n / 16 < n := Nat.div_lt_self (by omega) (by omega)
      rw [ih (n / 16) hdiv acc]
      simp only [hexAccum, hexDigitVal_hexDigitChar (Nat.mod_lt n (show 0 < 16 by omega)),
        List.length_append, List.length_singleton]
      congr 1
      have : 16 * (n / 16) + n % 16 = n := Nat.div_add_mod n 16
      ring_nf
      omega

theorem natToHexUpper_length_le {n k : Nat} (hk : 0 < k) (h : n < 16 ^ k) :
    (natToHexUpper n).length ≤ k := by
  induction n using Nat.strong_induction_on generalizing k with
  | _ n ih =>
    rw [natToHexUpper_eq]
    split
    · simpa using hk
    · next hn =>
      simp only [List.length_append, List.length_singleton]
      have hk2 : 2 ≤ k := by
        by_contra hcon
        interval_cases k <;> omega
      have hpow : 16 ^ k = 16 ^ (k - 1) * 16 := by
        rw [← pow_succ]
        congr 1
        omega
      have : n / 16 < 16 ^ (k - 1) := Nat.div_lt_of_lt_mul (by omega)
      have := ih (n / 16) (Nat.div_lt_self (by omega) (by omega)) (k := k - 1) (by omega) this
      omega

theorem hexAccum_replicate_zero (k : Nat) (ds : List Char) :
    hexAccum 0 (List.replicate k '0' ++ ds) = hexAccum 0 ds := by
  induction k with
  | zero => simp
  | succ k ih =>
    simp only [List.replicate_succ, List.cons_append, hexAccum]
    have : hexDigitVal '0' = some 0 := by decide
    rw [this]
    simpa using ih

theorem parseHexDigitsU64_natToHexUpper {n : Nat} (h : n < U64_MOD) :
    parseHexDigitsU64 (natToHexUpper n) = some n := by
  rw [parseHexDigitsU64, if_neg (natToHexUpper_ne_nil n), hexAccum_natToHexUpper]
  simp [h]

theorem parseHexU64_natToHexUpper {n : Nat} (h : n < U64_MOD) :
    parseHexU64 (natToHexUpper n) = some n := by
  rcases hcons : natToHexUpper n with _ | ⟨c, cs⟩
  · exact absurd hcons (natToHexUpper_ne_nil n)
  · have hc : c ∈ natToHexUpper n := by rw [hcons]; exact List.mem_cons_self _ _
    obtain ⟨d, hd, rfl⟩ := mem_natToHexUpper n c hc
    rw [parseHexU64, if_neg (hexDigitChar_ne_plus hd), if_neg (hexDigitChar_ne_minus hd),
      ← hcons]
    exact parseHexDigitsU64_natToHexUpper h

theorem pad8Hex_parse {n : Nat} (h : n < U64_MOD) :
    parseHexDigitsU64 (pad8Hex n) = some n := by
  rw [pad8Hex, parseHexDigitsU64]
  rw [if_neg (by simp [natToHexUpper_ne_nil n])]
  rw [hexAccum_replicate_zero, hexAccum_natToHexUpper]
  simp [h]

theorem pad8Hex_length {n : Nat} (h : n < U32_MOD) : (pad8Hex n).length = 8 := by
  have : (natToHexUpper n).length ≤ 8 := by
    apply natToHexUpper_length_le (by omega)
    have : (16 : Nat) ^ 8 = U32_MOD := by norm_num [U32_MOD]
    omega
  simp only [pad8Hex, List.length_append, List.length_replicate]
  omega

/-! ## PgLSN: display and parsing (src/pg_lsn.rs)

`PgLSN` wraps a u64; we work with the `Nat` value directly. -/

/-- Embeds `u64::cast_signed` (used for `record.lsn.cast_signed()`):
reinterpret a u64 value as an i64. -/
def u64CastSigned (n : Nat) : Int :=
  if n < 2 ^ 63 then (n : Int) else (n : Int) - (2 ^ 64 : Int)

/-- Embeds `impl Display for PgLSN` (`write!("{0:X}/{1:08X}", value >> 32,
(value & 0xffffffff) as u32)`). -/
def pgLsnDisplay (v : Nat) : List Char :=
  natToHexUpper (v >>> 32) ++ '/' :: pad8Hex (Nat.land v 0xffffffff)

/-- Lazy model of `str::split('/')` as consumed by the parser: the piece
before the first `'/'`, and — when a `'/'` exists — the remaining input
after it (from which the next piece is taken the same way).  `split` on any
string yields at least one piece, so the first `iter.next()` never fails. -/
def breakSlash : List Char → List Char × Option (List Char)
  | [] => ([], none)
  | c :: cs =>
    if c = '/' then ([], some cs)
    else
      let r := breakSlash cs
      (c :: r.1, r.2)

/-- Outcome of `impl TryFrom<&str> for PgLSN`.  The `InvalidLSN::Format`
variant of the source is dead code (split always yields a first piece), so
it does not appear; `crash` models a Rust panic. -/
inductive LsnParse where
  | ok (v : Nat)
  | hexErr (input : List Char)
  | crash (msg : String)
deriving DecidableEq, Repr

/-- Embeds `impl TryFrom<&str> for PgLSN` (src/pg_lsn.rs): parse the piece
before the first `'/'` as hex, then `iter.next().unwrap()` — a panic when
the input has no `'/'` — and parse the next piece as hex; the result is
`xlogid << 32 | xrecoff` in wrapping u64 arithmetic. -/
def pgLsnTryFrom (s : List Char) : LsnParse :=
  let p := breakSlash s
  match parseHexU64 p.1 with
  | none => .hexErr s
  | some xlogid =>
    match p.2 with
    | none => .crash "called Option::unwrap on a None value"
    | some rest =>
      match parseHexU64 (breakSlash rest).1 with
      | none => .hexErr s
      | some xrecoff => .ok (Nat.lor ((xlogid <<< 32) % U64_MOD) xrecoff)

/-! ## WAL file names (src/pg_lsn.rs: xlog_file_name, filename_to_startptr) -/

/-- Embeds `xlog_file_name`: format the timeline and segment number as a
24-hex-digit name (each component through `{:08X}`). -/
def xlogFileName (tli logSegNo walSegszBytes : Nat) : List Char :=
  let segmentsPerXlogId := 0x100000000 / walSegszBytes
  let up := logSegNo / segmentsPerXlogId
  let rest := logSegNo % segmentsPerXlogId
  pad8Hex tli ++ pad8Hex up ++ pad8Hex rest

/-- Models `std::path::Path::file_name` for the paths this code feeds it:
the final component after the last `'/'` (trailing separators ignored),
`none` when the path is empty or its final component is `"."` or `".."`. -/
def pathFileName (s : List Char) : Option (List Char) :=
  let trimmed := (s.reverse.dropWhile (· = '/')).reverse
  let comp := (trimmed.reverse.takeWhile (· ≠ '/')).reverse
  if comp = [] ∨ comp = ['.'] ∨ comp = ['.', '.'] then none else some comp

/-- Models Rust's byte-range slicing `&s[a..b]` on an ASCII string:
out-of-range indices panic. -/
def sliceStr (s : List Char) (a b : Nat) : Option (List Char) :=
  if a ≤ b ∧ b ≤ s.length then some ((s.drop a).take (b - a)) else none

/-- Outcome of `filename_to_startptr`; `crash` models the panic of an
out-of-range string slice. -/
inductive StartptrResult where
  | ok (tli startptr : Nat)
  | fileNameErr (input : List Char)
  | hexErr (piece : List Char)
  | crash (msg : String)
deriving DecidableEq, Repr

/-- Embeds `filename_to_startptr` (src/pg_lsn.rs): slice the 24-character
name into timeline, log and segment fields, parse each as hex, and return
`(tli, log * 0x100000000 * wal_segsz_bytes + seg)` in wrapping u64
arithmetic. -/
def filenameToStartptr (filename : List Char) (walSegszBytes : Nat) : StartptrResult :=
  match pathFileName filename with
  | none => .fileNameErr filename
  | some fname =>
    match sliceStr fname 0 8 with
    | none => .crash "byte index 8 is out of bounds"
    | some tliStr =>
      match parseHexU64 tliStr with
      | none => .hexErr tliStr
      | some tli =>
        match sliceStr fname 8 16 with
        | none => .crash "byte index 16 is out of bounds"
        | some logStr =>
          match parseHexU64 logStr with
          | none => .hexErr logStr
          | some log =>
            match sliceStr fname 16 24 with
            | none => .crash "byte index 24 is out of bounds"
            | some segStr =>
              match parseHexU64 segStr with
              | none => .hexErr segStr
              | some seg =>
                .ok tli ((log * 0x100000000 * walSegszBytes + seg) % U64_MOD)

/-! ## Segment locator (src/wal.rs) -/

def XLOG_FNAME_LEN : Nat := 24

def WAL_SEG_MIN_SIZE : Nat := 1024 * 1024

def WAL_SEG_MAX_SIZE : Nat := 1024 * 1024 * 1024

/-- Bit loop of `u32::count_ones`, with an explicit recursion bound. -/
def countOnesAux : Nat → Nat → Nat
  | 0, _ => 0
  | fuel + 1, n => if n = 0 then 0 else n % 2 + countOnesAux fuel (n / 2)

/-- Embeds `u32::count_ones` (population count). -/
def countOnes (n : Nat) : Nat := countOnesAux (n + 1) n

theorem countOnesAux_fuel : ∀ {n fuel : Nat}, n < fuel → countOnesAux fuel n = countOnes n := by
  intro n
  induction n using Nat.strong_induction_on with
  | _ n ih =>
    intro fuel hf
    match fuel with
    | f + 1 =>
      show countOnesAux (f + 1) n = countOnesAux (n + 1) n
      simp only [countOnesAux]
      split
      · rfl
      · next hn =>
        have hdiv : n / 2 < n := Nat.div_lt_self (by omega) (by omega)
        rw [ih (n / 2) hdiv (by omega), ih (n / 2) hdiv (by omega)]

/-- Unfolding equation for `countOnes`. -/
theorem countOnes_eq (n : Nat) :
    countOnes n = if n = 0 then 0 else n % 2 + countOnes (n / 2) := by
  show countOnesAux (n + 1) n = _
  simp only [countOnesAux]
  split
  · rfl
  · next hn =>
    rw [countOnesAux_fuel (Nat.div_lt_self (by omega) (by omega))]

/-- Embeds `is_wal_segsz_valid`: `is_power_of_two()` (popcount = 1) and
membership in the inclusive range 1 MiB ..= 1 GiB. -/
def isWalSegszValid (walSegSize : Nat) : Bool :=
  countOnes walSegSize == 1 &&
    (decide (WAL_SEG_MIN_SIZE ≤ walSegSize) && decide (walSegSize ≤ WAL_SEG_MAX_SIZE))

/-- Shallow model of one directory entry as `wal.rs` observes it: its path,
whether it exists, and — when its first `XLOG_BLCKSZ` bytes can be read —
the `xlp_seg_size` field its long page header declares (`none` models an
open/short-read failure). -/
structure FsFile where
  path : List Char
  present : Bool
  headerSegSize : Option Nat
deriving DecidableEq, Repr

/-- Error enum `InvalidWalFile` of src/wal.rs (variants used by the model). -/
inductive InvalidWalFile where
  | readError (path : List Char)
  | noFile (path : List Char)
  | invalidFileName (name : List Char)
  | invalidWalSegSz (sz : Nat)
deriving DecidableEq, Repr

/-- Embeds `get_wal_segsz`: open and read the first page (failure is a
`ReadError`), then validate the declared `xlp_seg_size`. -/
def getWalSegsz (f : FsFile) : Except InvalidWalFile Nat :=
  match f.headerSegSize with
  | none => .error (.readError f.path)
  | some sz =>
    if isWalSegszValid sz then .ok sz else .error (.invalidWalSegSz sz)

/-- Embeds `validate_wal_file`: existence, a 24-character all-hex file name,
then the header segment-size check of `get_wal_segsz`. -/
def validateWalFile (f : FsFile) : Except InvalidWalFile Nat :=
  if f.present = false then .error (.noFile f.path)
  else
    match pathFileName f.path with
    | none => .error (.noFile f.path)
    | some fileName =>
      if fileName.length ≠ XLOG_FNAME_LEN then .error (.invalidFileName fileName)
      else if fileName.all isAsciiHexdigit = false then .error (.invalidFileName fileName)
      else getWalSegsz f

/-- Loop body of `search_directory`: try each entry in order and return the
first that validates; a failed candidate is skipped, not fatal. -/
def searchFiles : List FsFile → Option (FsFile × Nat)
  | [] => none
  | f :: rest =>
    match validateWalFile f with
    | .ok segsz => some (f, segsz)
    | .error _ => searchFiles rest

/-- Lexicographic byte order on paths, the order `entries.sort()` uses. -/
def pathLe (a b : List Char) : Bool :=
  match a, b with
  | [], _ => true
  | _ :: _, [] => false
  | c :: cs, d :: ds => if c = d then pathLe cs ds else decide (c.toNat ≤ d.toNat)

/-- Insertion step of a stable sort by path (models `entries.sort()`,
which sorts the `PathBuf` list lexicographically). -/
def insertByPath (f : FsFile) : List FsFile → List FsFile
  | [] => [f]
  | g :: rest =>
    if pathLe f.path g.path then f :: g :: rest else g :: insertByPath f rest

/-- Stable lexicographic sort by path: the effect of `entries.sort()`. -/
def sortByPath : List FsFile → List FsFile
  | [] => []
  | f :: rest => insertByPath f (sortByPath rest)

/-- Embeds `search_directory` (given the entries `read_dir` produced):
sort lexicographically, then scan with `searchFiles`. -/
def searchDirectory (entries : List FsFile) : Option (FsFile × Nat) :=
  searchFiles (sortByPath entries)

/-! ## Segment I/O: the read-page callback (src/xlog_reader.rs and the
identical copy in src/lib.rs) -/

def XLOG_BLCKSZ : Nat := 8192

/-- Private state of the xlogreader callbacks (`XLogReaderPrivate`). -/
structure ReadPrivate where
  timeline : Nat
  endptr : Option Nat
  endptrReached : Bool
deriving DecidableEq, Repr

/-- Embeds the end-pointer clipping logic of `pg_waldecoder_read_page`:
returns the updated private state and the callback's return value
(`-1` is the end-reached sentinel).  The actual byte transfer (`WALRead`)
is external postgres code; a failed `WALRead` raises a session error and
never returns, so the returned count describes every successful call. -/
def pgWaldecoderReadPage (priv : ReadPrivate) (targetPagePtr reqLen : Nat) :
    ReadPrivate × Int :=
  match priv.endptr with
  | some endptr =>
    if targetPagePtr + XLOG_BLCKSZ ≤ endptr then (priv, Int.ofNat XLOG_BLCKSZ)
    else if targetPagePtr + reqLen ≤ endptr then (priv, Int.ofNat (endptr - targetPagePtr))
    else ({ priv with endptrReached := true }, -1)
  | none => (priv, Int.ofNat XLOG_BLCKSZ)

/-! ## Heap decoder (src/decoder.rs)

Resource-manager and heap-opcode constants from postgres headers. -/

def RM_HEAP_ID : Nat := 10

def XLOG_HEAP_OPMASK : Nat := 0x70

def XLOG_HEAP_INSERT : Nat := 0x00

def XLOG_HEAP_DELETE : Nat := 0x10

def XLOG_HEAP_UPDATE : Nat := 0x20

def XLOG_HEAP_HOT_UPDATE : Nat := 0x40

structure RelFileLocator where
  spcOid : Nat
  dbOid : Nat
  relNumber : Nat
deriving DecidableEq, Repr

/-- Shallow model of a `DecodedBkpBlock`: its block tag, the image flags,
and the full-page-image bytes the embedded image restores to.
`RestoreBlockImage` is external postgres code; per the spec (§4.4) an
applied image fills the page with the embedded image bytes, which is what
`imageBytes` holds. -/
structure DecodedBkpBlock where
  rlocator : RelFileLocator
  blkno : Nat
  hasImage : Bool
  applyImage : Bool
  imageBytes : List Nat
deriving DecidableEq, Repr

structure XLogRecordHeader where
  xl_rmid : Nat
  xl_info : Nat
  xl_xid : Nat
deriving DecidableEq, Repr

/-- Shallow model of a `DecodedXLogRecord`.  The xlogreader materializes
blocks `0 ..= max_block_id`, so `blocks` is nonempty whenever
`maxBlockId ≥ 0`; `mainData` is the opcode-specific sub-payload (never
consulted by the current decode path). -/
structure DecodedXLogRecord where
  lsn : Nat
  header : XLogRecordHeader
  maxBlockId : Int
  blocks : List DecodedBkpBlock
  mainData : List Nat
deriving DecidableEq, Repr

/-- Cache key `PageId` of src/decoder.rs. -/
structure PageId where
  spcOid : Nat
  dbOid : Nat
  relNumber : Nat
  blknum : Nat
deriving DecidableEq, Repr

/-- Embeds `PageId::new(blk)`. -/
def PageId.ofBlock (blk : DecodedBkpBlock) : PageId :=
  ⟨blk.rlocator.spcOid, blk.rlocator.dbOid, blk.rlocator.relNumber, blk.blkno⟩

/-- Embeds `DecodedResult` of src/decoder.rs. -/
structure DecodedResult where
  lsn : Int
  dboid : Nat
  relid : Nat
  xid : Nat
  redoQuery : Option (List Char)
  revertQuery : Option (List Char)
  rowBefore : Option (List Char)
  rowAfter : Option (List Char)
deriving DecidableEq, Repr

/-- The page-reconstruction cache `page_hash : HashMap<PageId, ..>`,
modelled as an association list: `hashLookup` finds the most recent
binding, so `hashInsert` has the overwrite semantics of `HashMap::insert`. -/
abbrev PageHash : Type := List (PageId × List Nat)

def hashLookup (h : PageHash) (k : PageId) : Option (List Nat) :=
  match h.find? (fun kv => kv.1 = k) with
  | some kv => some kv.2
  | none => none

def hashInsert (h : PageHash) (k : PageId) (v : List Nat) : PageHash :=
  (k, v) :: h

/-- Embeds `WalDecoder::restore_fpw` for one block: a page image is
restored only when the block carries both `has_image` and `apply_image`. -/
def restoreFpw (blk : DecodedBkpBlock) : Option (List Nat) :=
  if blk.hasImage && blk.applyImage then some blk.imageBytes else none

/-- Embeds `WalDecoder::apply_heap_insert`: an early return when the block
was a full-page write, and nothing otherwise — the function never touches
the page or the record's sub-payload. -/
def applyHeapInsert (_page : List Nat) (blk : DecodedBkpBlock) : Unit :=
  if blk.hasImage && blk.applyImage then () else ()

/-- Result of a decode step; `crash` models a Rust panic (`todo!`,
`panic!` or an out-of-bounds access). -/
inductive DecodeOut where
  | res (r : Option DecodedResult)
  | crash (msg : String)
deriving DecidableEq, Repr

/-- Embeds `WalDecoder::decode_heap_record`: mask the info byte with
`XLOG_HEAP_OPMASK`; Insert runs `apply_heap_insert` and yields one
`DecodedResult` whose query and row fields are all `None`; Update and
Delete hit `todo!("Heap update and delete")`; any other opcode yields
no result. -/
def decodeHeapRecord (rec : DecodedXLogRecord) (page : List Nat)
    (blk : DecodedBkpBlock) (relid : Nat) : DecodeOut :=
  let heapOp := Nat.land rec.header.xl_info XLOG_HEAP_OPMASK
  if heapOp = XLOG_HEAP_INSERT then
    let _ := applyHeapInsert page blk
    .res (some
      { lsn := u64CastSigned rec.lsn
        dboid := blk.rlocator.dbOid
        relid := relid
        xid := rec.header.xl_xid
        redoQuery := none
        revertQuery := none
        rowBefore := none
        rowAfter := none })
  else if heapOp = XLOG_HEAP_UPDATE ∨ heapOp = XLOG_HEAP_DELETE then
    .crash "not yet implemented: Heap update and delete"
  else .res none

/-- Embeds `WalDecoder::process_current_record`.  The catalog lookup
`get_relid_from_rlocator` is a live-catalog collaborator outside src/;
per the spec (§6) it is a function `rlocator -> Option relid`, passed here
as the `catalog` parameter.  Returns the updated page cache together with
the decode outcome (the cache update from `restore_fpw` happens before the
decode step, so it survives even a crashing decode). -/
def processCurrentRecord (catalog : RelFileLocator → Option Nat)
    (hash : PageHash) (rec : DecodedXLogRecord) : PageHash × DecodeOut :=
  if rec.header.xl_rmid ≠ RM_HEAP_ID then (hash, .res none)
  else if rec.maxBlockId < 0 then (hash, .res none)
  else
    match rec.blocks.head? with
    | none => (hash, .crash "block 0 is not materialized")
    | some blk =>
      let pageId := PageId.ofBlock blk
      let hash1 :=
        match restoreFpw blk with
        | some page => hashInsert hash pageId page
        | none => hash
      match hashLookup hash1 pageId with
      | none => (hash1, .res none)
      | some page =>
        match catalog blk.rlocator with
        | none => (hash1, .res none)
        | some relid =>
          if rec.header.xl_rmid = RM_HEAP_ID then (hash1, decodeHeapRecord rec page blk relid)
          else (hash1, .crash "Unsupported record type")

/-! ## The lazy record sequence (Iterator::next of src/decoder.rs)

The record assembler itself is postgres's `XLogReadRecord`, which is not
part of this repository's sources; only its caller `move_to_next_record`
is.  We model the assembler from the spec (§4.3): at each position the
underlying log either holds one assembled record (with the position after
it) or fails with an error message (end of valid log / corrupt record),
and — per §4.2 — a record whose bytes would extend past the configured
end pointer is not returned: the read-page callback sets `endptr_reached`
and the read fails without advancing the position. -/

inductive LogEntry where
  | record (r : DecodedXLogRecord) (endPos : Nat)
  | bad (msg : String)

/-- Reader-session state: the read position (`EndRecPtr`), the configured
end pointer and the `endptr_reached` flag of `XLogReaderPrivate`. -/
structure SessionState where
  readPos : Nat
  endptr : Option Nat
  endptrReached : Bool
deriving DecidableEq, Repr

/-- Modelled from the spec: postgres's `XLogReadRecord` over the abstract
log `log`.  Returns the new session state, the record read (if any) and
the error message (if any). -/
def xLogReadRecordModel (log : Nat → LogEntry) (st : SessionState) :
    SessionState × Option DecodedXLogRecord × Option String :=
  match log st.readPos with
  | .bad msg => (st, none, some msg)
  | .record r endPos =>
    match st.endptr with
    | some ep =>
      if endPos ≤ ep then ({ st with readPos := endPos }, some r, none)
      else ({ st with endptrReached := true }, none, none)
    | none => ({ st with readPos := endPos }, some r, none)

/-- Embeds `WalDecoder::move_to_next_record`: returns the record read and
`true` when the end is reached (end pointer hit, or a read error — which
is logged as a warning and also ends the sequence). -/
def moveToNextRecord (log : Nat → LogEntry) (st : SessionState) :
    SessionState × Option DecodedXLogRecord × Bool :=
  let x := xLogReadRecordModel log st
  match x.2.1 with
  | some r => (x.1, some r, false)
  | none =>
    if x.1.endptrReached then (x.1, none, true)
    else
      match x.2.2 with
      | some _ => (x.1, none, true)
      | none => (x.1, none, false)

/-- State of a `WalDecoder` iterator: the reader session plus the
page-reconstruction cache. -/
structure DecoderState where
  session : SessionState
  hash : PageHash
deriving DecidableEq, Repr

/-- Outcome of one `next()` call.  `fuelOut` marks exhaustion of the
explicit recursion bound (the Rust loop is bounded by the finite log);
`crash` models a panic escaping the loop. -/
inductive NextOut where
  | item (d : DecodedResult)
  | finished
  | crash (msg : String)
  | fuelOut
deriving DecidableEq, Repr

/-- Embeds `<WalDecoder as Iterator>::next`: advance to the next record,
return `none`/`finished` when the end is reached, otherwise process the
record; a record that produces no change is skipped and the loop
continues. -/
def decoderNext (catalog : RelFileLocator → Option Nat) (log : Nat → LogEntry) :
    Nat → DecoderState → DecoderState × NextOut
  | 0, st => (st, .fuelOut)
  | fuel + 1, st =>
    let m := moveToNextRecord log st.session
    if m.2.2 then ({ st with session := m.1 }, .finished)
    else
      match m.2.1 with
      | none => ({ st with session := m.1 }, .crash "null record")
      | some r =>
        let p := processCurrentRecord catalog st.hash r
        match p.2 with
        | .crash msg => ({ session := m.1, hash := p.1 }, .crash msg)
        | .res (some d) => ({ session := m.1, hash := p.1 }, .item d)
        | .res none => decoderNext catalog log fuel { session := m.1, hash := p.1 }

/-! ## Supporting lemmas for parsing and formatting -/

theorem mem_pad8Hex (n : Nat) :
    ∀ c ∈ pad8Hex n, ∃ d, d < 16 ∧ c = hexDigitChar d := by
  intro c hc
  rcases List.mem_append.mp hc with h | h
  · rw [List.eq_of_mem_replicate h]
    exact ⟨0, by omega, rfl⟩
  · exact mem_natToHexUpper n c h

theorem pad8Hex_ne_nil (n : Nat) : pad8Hex n ≠ [] := by
  intro h
  exact natToHexUpper_ne_nil n (List.append_eq_nil.mp h).2

theorem parseHexU64_of_head_hex {s : List Char}
    (hne : s ≠ []) (hhead : ∀ c ∈ s, ∃ d, d < 16 ∧ c = hexDigitChar d) :
    parseHexU64 s = parseHexDigitsU64 s := by
  match s with
  | [] => exact absurd rfl hne
  | c :: cs =>
    obtain ⟨d, hd, rfl⟩ := hhead c (List.mem_cons_self _ _)
    rw [parseHexU64, if_neg (hexDigitChar_ne_plus hd), if_neg (hexDigitChar_ne_minus hd)]

theorem parseHexU64_pad8Hex {n : Nat} (h : n < U64_MOD) :
    parseHexU64 (pad8Hex n) = some n := by
  rw [parseHexU64_of_head_hex (pad8Hex_ne_nil n) (mem_pad8Hex n), pad8Hex_parse h]

theorem breakSlash_no_slash {s : List Char} (h : '/' ∉ s) : breakSlash s = (s, none) := by
  induction s with
  | nil => rfl
  | cons c cs ih =>
    rw [breakSlash, if_neg (by intro hc; exact h (hc ▸ List.mem_cons_self _ _))]
    rw [ih (fun hm => h (List.mem_cons_of_mem _ hm))]

theorem breakSlash_append {a : List Char} (b : List Char) (h : '/' ∉ a) :
    breakSlash (a ++ '/' :: b) = (a, some b) := by
  induction a with
  | nil => rfl
  | cons c cs ih =>
    rw [List.cons_append, breakSlash,
      if_neg (by intro hc; exact h (hc ▸ List.mem_cons_self _ _))]
    rw [ih (fun hm => h (List.mem_cons_of_mem _ hm))]

theorem slash_not_mem_natToHexUpper (n : Nat) : '/' ∉ natToHexUpper n := by
  intro hm
  obtain ⟨d, hd, hc⟩ := mem_natToHexUpper n '/' hm
  exact hexDigitChar_ne_slash hd hc.symm

theorem slash_not_mem_pad8Hex (n : Nat) : '/' ∉ pad8Hex n := by
  intro hm
  obtain ⟨d, hd, hc⟩ := mem_pad8Hex n '/' hm
  exact hexDigitChar_ne_slash hd hc.symm

theorem lor_high_low (a : Nat) {b : Nat} (hb : b < U32_MOD) :
    Nat.lor (a * 2 ^ 32) b = a * 2 ^ 32 + b := by
  have hb32 : b < 2 ^ 32 := hb
  show a * 2 ^ 32 ||| b = a * 2 ^ 32 + b
  apply Nat.eq_of_testBit_eq
  intro j
  rw [Nat.testBit_or, mul_comm a (2 ^ 32), Nat.testBit_mul_pow_two_add a hb32 j]
  have h0 := Nat.testBit_mul_pow_two_add a (show (0 : Nat) < 2 ^ 32 by positivity) j
  rw [Nat.add_zero] at h0
  rcases lt_or_ge j 32 with hj | hj
  · rw [if_pos hj]
    have hza : Nat.testBit (2 ^ 32 * a) j = false := by
      rw [h0, if_pos hj]
      exact Nat.zero_testBit j
    rw [hza, Bool.false_or]
  · rw [if_neg (by omega)]
    have hbj : Nat.testBit b j = false := by
      apply Nat.testBit_eq_false_of_lt
      calc b < 2 ^ 32 := hb32
      _ ≤ 2 ^ j := Nat.pow_le_pow_right (by omega) hj
    have hza : Nat.testBit (2 ^ 32 * a) j = Nat.testBit a (j - 32) := by
      rw [h0, if_neg (by omega)]
    rw [hza, hbj, Bool.or_false]

/-- A list whose members all fail `p` is untouched by `dropWhile`. -/
theorem dropWhile_eq_self_of_not {p : Char → Bool} {l : List Char}
    (h : ∀ a ∈ l, p a = false) : l.dropWhile p = l := by
  cases l with
  | nil => rfl
  | cons c cs => simp [List.dropWhile, h c (List.mem_cons_self _ _)]

theorem pathFileName_no_slash {s : List Char} (h : '/' ∉ s) (hlen : 3 ≤ s.length) :
    pathFileName s = some s := by
  have hmem : ∀ a ∈ s.reverse, (a = '/' : Bool) = false := by
    intro a ha
    simp only [decide_eq_false_iff_not]
    intro hc
    exact h (hc ▸ List.mem_reverse.mp ha)
  have htake : s.reverse.takeWhile (fun c => c ≠ '/') = s.reverse := by
    rw [List.takeWhile_eq_self_iff]
    intro a ha
    have hne : a ≠ '/' := by
      intro hc
      exact h (hc ▸ List.mem_reverse.mp ha)
    simpa using hne
  rw [pathFileName]
  simp only [dropWhile_eq_self_of_not hmem, List.reverse_reverse, htake]
  rw [if_neg]
  · intro hcon
    rcases hcon with hc | hc | hc
    · rw [hc] at hlen
      simp at hlen
    · rw [hc] at hlen
      simp at hlen
    · rw [hc] at hlen
      simp at hlen

/-! ## C8: display/parse round trip for PgLSN -/

/-- C8: for every 64-bit LogPointer value, `Display` prints the upper 32
bits in hex, a `'/'`, and the lower 32 bits zero-padded to 8 hex digits
(this is `pgLsnDisplay` by definition), and parsing the printed string with
`TryFrom<&str>` returns exactly the original value. -/
theorem c8_display_parse_roundtrip {v : Nat} (hv : v < U64_MOD) :
    pgLsnDisplay v =
      natToHexUpper (v >>> 32) ++ '/' :: pad8Hex (Nat.land v 0xffffffff) ∧
    pgLsnTryFrom (pgLsnDisplay v) = .ok v := by
  refine ⟨rfl, ?_⟩
  have hland : Nat.land v 0xffffffff = v % 2 ^ 32 := by
    show v &&& 4294967295 = v % 2 ^ 32
    rw [show (4294967295 : Nat) = 2 ^ 32 - 1 by norm_num, Nat.and_pow_two_sub_one_eq_mod]
  have hshift : v >>> 32 = v / 2 ^ 32 := Nat.shiftRight_eq_div_pow v 32
  have hv64 : v < 2 ^ 64 := hv
  have hhigh : v / 2 ^ 32 < 2 ^ 32 := by
    apply Nat.div_lt_of_lt_mul
    calc v < 2 ^ 64 := hv64
    _ = 2 ^ 32 * 2 ^ 32 := by norm_num
  have hlow : v % 2 ^ 32 < 2 ^ 32 := Nat.mod_lt _ (by norm_num)
  have hdisp : pgLsnDisplay v =
      natToHexUpper (v / 2 ^ 32) ++ '/' :: pad8Hex (v % 2 ^ 32) := by
    rw [pgLsnDisplay, hland, hshift]
  rw [hdisp, pgLsnTryFrom]
  rw [breakSlash_append _ (slash_not_mem_natToHexUpper _)]
  simp only
  rw [parseHexU64_natToHexUpper (show v / 2 ^ 32 < U64_MOD by unfold U64_MOD; omega)]
  rw [breakSlash_no_slash (slash_not_mem_pad8Hex _)]
  simp only
  rw [parseHexU64_pad8Hex (show v % 2 ^ 32 < U64_MOD by unfold U64_MOD; omega)]
  simp only
  congr 1
  have hsh : (v / 2 ^ 32) <<< 32 = v / 2 ^ 32 * 2 ^ 32 := Nat.shiftLeft_eq _ 32
  have hle : v / 2 ^ 32 * 2 ^ 32 ≤ v := Nat.div_mul_le_self v (2 ^ 32)
  rw [hsh, Nat.mod_eq_of_lt (show v / 2 ^ 32 * 2 ^ 32 < U64_MOD by unfold U64_MOD; omega)]
  rw [lor_high_low _ (show v % 2 ^ 32 < U32_MOD from hlow)]
  have := Nat.div_add_mod v (2 ^ 32)
  omega

/-- C8 witness: concrete round trip at the value 0x100000002. -/
theorem c8_witness :
    (4294967298 : Nat) < U64_MOD ∧ pgLsnTryFrom (pgLsnDisplay 4294967298) = .ok 4294967298 :=
  ⟨by norm_num [U64_MOD], (c8_display_parse_roundtrip (by norm_num [U64_MOD])).2⟩

/-! ## C6: malformed log-pointer strings -/

/-- C6 (code bug): the spec requires every malformed `HEX/HEX` pointer
string to produce a returned parse error, never a success and never any
other failure mode.  Evaluating the embedded `TryFrom<&str> for PgLSN` at
`"0"` (valid hex, no `'/'` separator) panics via `iter.next().unwrap()`
instead of returning an error, and at `"1/2/3"` (not of the `HEX/HEX`
form) parsing succeeds with value 0x100000002. -/
theorem c6_malformed_lsn_eval :
    pgLsnTryFrom ['0'] = .crash "called Option::unwrap on a None value" ∧
    pgLsnTryFrom ['1', '/', '2', '/', '3'] = .ok 4294967298 := by
  exact ⟨by decide, by decide⟩

/-! ## C10: file-name round trip -/

/-- C10 counterexample: at timeline 1, segment number 4096 and segment
size 1 MiB (all in range for the claim), `filename_to_startptr` applied to
`xlog_file_name`'s output returns segment value 2^52, not the original
4096 — the reconstruction multiplies by `0x100000000 * wal_segsz_bytes`
where inverting the file-name split would require dividing. -/
theorem c10_counterexample :
    filenameToStartptr (xlogFileName 1 4096 1048576) 1048576 =
      .ok 1 4503599627370496 ∧ (4503599627370496 : Nat) ≠ 4096 := by
  exact ⟨by decide, by decide⟩

theorem sliceStr_parts {a b c : List Char} (ha : a.length = 8) (hb : b.length = 8)
    (hc : c.length = 8) :
    sliceStr (a ++ b ++ c) 0 8 = some a ∧
    sliceStr (a ++ b ++ c) 8 16 = some b ∧
    sliceStr (a ++ b ++ c) 16 24 = some c := by
  have hlen : (a ++ b ++ c).length = 24 := by
    simp [List.length_append, ha, hb, hc]
  have hab : (a ++ b).length = 16 := by simp [List.length_append, ha, hb]
  refine ⟨?_, ?_, ?_⟩
  · rw [sliceStr, if_pos (by omega)]
    congr 1
    rw [List.drop_zero, List.append_assoc, List.take_left' ha]
  · rw [sliceStr, if_pos (by omega)]
    congr 1
    rw [List.append_assoc, List.drop_left' ha, List.take_left' hb]
  · rw [sliceStr, if_pos (by omega)]
    congr 1
    rw [List.drop_left' hab, List.take_of_length_le (by omega)]

/-- C10 (amended): for every timeline id below 2^32, every valid segment
size, and every segment number below `0x100000000 / segment_size` (so that
the log/high field of the file name is zero), `filename_to_startptr`
inverts `xlog_file_name` and returns exactly the original
(timeline, segment number) pair.  The counterexample above shows the
original unrestricted claim fails as soon as the log field is nonzero. -/
theorem c10_filename_roundtrip_amended {tli segno segsz : Nat}
    (htli : tli < U32_MOD) (hvalid : isWalSegszValid segsz = true)
    (hseg : segno < 0x100000000 / segsz) :
    filenameToStartptr (xlogFileName tli segno segsz) segsz = .ok tli segno := by
  have hszpos : 0 < segsz := by
    simp only [isWalSegszValid, Bool.and_eq_true, decide_eq_true_eq] at hvalid
    have := hvalid.2.1
    unfold WAL_SEG_MIN_SIZE at this
    omega
  have hsegno32 : segno < U32_MOD := by
    have h1 : 0x100000000 / segsz ≤ 0x100000000 := Nat.div_le_self _ _
    unfold U32_MOD
    omega
  have hname : xlogFileName tli segno segsz = pad8Hex tli ++ pad8Hex 0 ++ pad8Hex segno := by
    simp only [xlogFileName]
    rw [Nat.div_eq_of_lt hseg, Nat.mod_eq_of_lt hseg]
  have hlents : (pad8Hex tli).length = 8 ∧ (pad8Hex 0).length = 8 ∧
      (pad8Hex segno).length = 8 :=
    ⟨pad8Hex_length htli, pad8Hex_length (by norm_num [U32_MOD]), pad8Hex_length hsegno32⟩
  have hnoslash : '/' ∉ pad8Hex tli ++ pad8Hex 0 ++ pad8Hex segno := by
    intro hm
    rcases List.mem_append.mp hm with hm | hm
    · rcases List.mem_append.mp hm with hm | hm
      · exact slash_not_mem_pad8Hex _ hm
      · exact slash_not_mem_pad8Hex _ hm
    · exact slash_not_mem_pad8Hex _ hm
  have hpath : pathFileName (pad8Hex tli ++ pad8Hex 0 ++ pad8Hex segno) =
      some (pad8Hex tli ++ pad8Hex 0 ++ pad8Hex segno) := by
    apply pathFileName_no_slash hnoslash
    simp [List.length_append, hlents.1, hlents.2.1, hlents.2.2]
  obtain ⟨hs1, hs2, hs3⟩ := sliceStr_parts hlents.1 hlents.2.1 hlents.2.2
  have hp1 : parseHexU64 (pad8Hex tli) = some tli :=
    parseHexU64_pad8Hex (show tli < U64_MOD by
      unfold U32_MOD at htli; unfold U64_MOD; omega)
  have hp2 : parseHexU64 (pad8Hex 0) = some 0 :=
    parseHexU64_pad8Hex (show (0 : Nat) < U64_MOD by norm_num [U64_MOD])
  have hp3 : parseHexU64 (pad8Hex segno) = some segno :=
    parseHexU64_pad8Hex (show segno < U64_MOD by
      unfold U32_MOD at hsegno32; unfold U64_MOD; omega)
  have hmod : segno % U64_MOD = segno :=
    Nat.mod_eq_of_lt (by unfold U32_MOD at hsegno32; unfold U64_MOD; omega)
  rw [filenameToStartptr, hname, hpath]
  simp only [hs1, hs2, hs3, hp1, hp2, hp3, Nat.zero_mul, Nat.zero_add, hmod]

/-- C10 witness: the round trip at the repository's own test values
(timeline 1, segment 0x18, 1 MiB segments). -/
theorem c10_witness :
    filenameToStartptr (xlogFileName 1 24 1048576) 1048576 = .ok 1 24 :=
  c10_filename_roundtrip_amended (by norm_num [U32_MOD]) (by decide) (by norm_num)

/-! ## C5: segment-size validation in the locator -/

theorem countOnes_two_pow (k : Nat) : countOnes (2 ^ k) = 1 := by
  induction k with
  | zero => decide
  | succ k ih =>
    rw [countOnes_eq]
    have h1 : 2 ^ (k + 1) ≠ 0 := by positivity
    have h2 : 2 ^ (k + 1) = 2 ^ k * 2 := by rw [pow_succ]
    rw [if_neg h1]
    have h3 : 2 ^ (k + 1) % 2 = 0 := by omega
    have h4 : 2 ^ (k + 1) / 2 = 2 ^ k := by omega
    rw [h3, h4, ih]

theorem countOnes_eq_zero_imp : ∀ {n : Nat}, countOnes n = 0 → n = 0 := by
  intro n
  induction n using Nat.strong_induction_on with
  | _ n ih =>
    intro h
    rw [countOnes_eq] at h
    by_cases h0 : n = 0
    · exact h0
    · rw [if_neg h0] at h
      have hz : countOnes (n / 2) = 0 := by omega
      have := ih (n / 2) (Nat.div_lt_self (by omega) (by omega)) hz
      omega

theorem countOnes_eq_one_imp : ∀ {n : Nat}, countOnes n = 1 → ∃ k, n = 2 ^ k := by
  intro n
  induction n using Nat.strong_induction_on with
  | _ n ih =>
    intro h
    rw [countOnes_eq] at h
    by_cases h0 : n = 0
    · rw [if_pos h0] at h
      omega
    · rw [if_neg h0] at h
      rcases Nat.mod_two_eq_zero_or_one n with hm | hm
      · rw [hm] at h
        have h1 : countOnes (n / 2) = 1 := by omega
        obtain ⟨k, hk⟩ := ih (n / 2) (Nat.div_lt_self (by omega) (by omega)) h1
        exact ⟨k + 1, by rw [pow_succ]; omega⟩
      · rw [hm] at h
        have hz : countOnes (n / 2) = 0 := by omega
        have := countOnes_eq_zero_imp hz
        exact ⟨0, by simp; omega⟩

theorem searchFiles_some : ∀ {l : List FsFile} {f : FsFile} {sz : Nat},
    searchFiles l = some (f, sz) → validateWalFile f = .ok sz := by
  intro l
  induction l with
  | nil => intro f sz h; simp [searchFiles] at h
  | cons g rest ih =>
    intro f sz h
    rw [searchFiles] at h
    cases hv : validateWalFile g with
    | ok s =>
      rw [hv] at h
      simp only [Option.some_inj, Prod.mk.injEq] at h
      rw [← h.1, ← h.2]
      exact hv
    | error e =>
      rw [hv] at h
      exact ih h

theorem validateWalFile_ok_segsz {f : FsFile} {sz : Nat}
    (h : validateWalFile f = .ok sz) : isWalSegszValid sz = true := by
  rw [validateWalFile] at h
  split at h
  · simp at h
  · split at h
    · simp at h
    · split at h
      · simp at h
      · split at h
        · simp at h
        · rw [getWalSegsz] at h
          split at h
          · simp at h
          · split at h
            · next hvalid =>
              simp only [Except.ok.injEq] at h
              rw [← h]
              exact hvalid
            · simp at h

/-- C5: a candidate WAL file is accepted only if its header declares a
segment size that is a power of two within [1 MiB, 1 GiB] inclusive
(conjunct 3: any size returned by the directory scan passes the check and
is such a power of two); a candidate whose declared size fails the check
yields the `InvalidWalSegSz` error from validation (conjunct 1), and the
scan skips the failed candidate and continues with the remaining
candidates instead of aborting (conjunct 2). -/
theorem c5_segment_size_validation :
    (∀ (f : FsFile) (name : List Char) (sz : Nat), f.present = true →
      pathFileName f.path = some name → name.length = XLOG_FNAME_LEN →
      name.all isAsciiHexdigit = true → f.headerSegSize = some sz →
      isWalSegszValid sz = false →
      validateWalFile f = .error (.invalidWalSegSz sz))
    ∧ (∀ (f : FsFile) (rest : List FsFile) (e : InvalidWalFile),
        validateWalFile f = .error e → searchFiles (f :: rest) = searchFiles rest)
    ∧ (∀ (entries : List FsFile) (f : FsFile) (sz : Nat),
        searchDirectory entries = some (f, sz) →
        (∃ k, sz = 2 ^ k) ∧ WAL_SEG_MIN_SIZE ≤ sz ∧ sz ≤ WAL_SEG_MAX_SIZE) := by
  refine ⟨?_, ?_, ?_⟩
  · intro f name sz hpres hpath hlen hhex hhdr hbad
    simp only [validateWalFile, hpres, hpath, hlen, hhex, getWalSegsz, hhdr, hbad,
      Bool.true_eq_false, Bool.false_eq_true, if_false, ne_eq, not_true_eq_false, ite_self]
  · intro f rest e hval
    rw [searchFiles, hval]
  · intro entries f sz h
    have hok := searchFiles_some h
    have hvalid := validateWalFile_ok_segsz hok
    simp only [isWalSegszValid, Bool.and_eq_true, beq_iff_eq, decide_eq_true_eq] at hvalid
    exact ⟨countOnes_eq_one_imp hvalid.1, hvalid.2.1, hvalid.2.2⟩

/-- Concrete candidate with an in-range but non-power-of-two declared
segment size. -/
def c5BadFile : FsFile :=
  { path := "000000010000000000000017".toList, present := true, headerSegSize := some 5000000 }

/-- Concrete candidate matching the repository's test WAL file. -/
def c5GoodFile : FsFile :=
  { path := "000000010000000000000018".toList, present := true, headerSegSize := some 1048576 }

/-- C5 witness: the three conjuncts instantiated at concrete candidates. -/
theorem c5_witness :
    validateWalFile c5BadFile = .error (.invalidWalSegSz 5000000) ∧
    searchFiles [c5BadFile, c5GoodFile] = searchFiles [c5GoodFile] ∧
    ((∃ k, (1048576 : Nat) = 2 ^ k) ∧
      WAL_SEG_MIN_SIZE ≤ 1048576 ∧ 1048576 ≤ WAL_SEG_MAX_SIZE) := by
  have h1 := c5_segment_size_validation.1 c5BadFile ("000000010000000000000017".toList)
    5000000 rfl (by decide) (by decide) (by decide) rfl (by decide)
  refine ⟨h1, ?_, ?_⟩
  · exact c5_segment_size_validation.2.1 c5BadFile [c5GoodFile] (.invalidWalSegSz 5000000) h1
  · exact c5_segment_size_validation.2.2 [c5BadFile, c5GoodFile] c5GoodFile 1048576 (by decide)

/-! ## C2: end-pointer clipping in the page-read callback -/

/-- C2: with a configured end pointer, every successful page read returns
a byte count that never extends past the end pointer
(`target_page_ptr + count ≤ endptr`), and whenever even the requested
length cannot be satisfied without reading past the end pointer
(`endptr < target_page_ptr + req_len`, with `req_len` at most one block as
the xlogreader guarantees) the callback sets the `endptr_reached` flag and
returns the `-1` sentinel instead of bytes or an error. -/
theorem c2_read_page_clips (priv : ReadPrivate) (tpp reqLen endptr : Nat)
    (hep : priv.endptr = some endptr) (hreq : reqLen ≤ XLOG_BLCKSZ) :
    (∀ count : Nat, (pgWaldecoderReadPage priv tpp reqLen).2 = Int.ofNat count →
      tpp + count ≤ endptr)
    ∧ (endptr < tpp + reqLen →
        (pgWaldecoderReadPage priv tpp reqLen).2 = -1 ∧
        (pgWaldecoderReadPage priv tpp reqLen).1.endptrReached = true) := by
  have hred : pgWaldecoderReadPage priv tpp reqLen =
      (if tpp + XLOG_BLCKSZ ≤ endptr then (priv, Int.ofNat XLOG_BLCKSZ)
       else if tpp + reqLen ≤ endptr then (priv, Int.ofNat (endptr - tpp))
       else ({ priv with endptrReached := true }, -1)) := by
    rw [pgWaldecoderReadPage, hep]
  rw [hred]
  constructor
  · intro count hcount
    by_cases h1 : tpp + XLOG_BLCKSZ ≤ endptr
    · rw [if_pos h1] at hcount
      have hc := Int.ofNat.inj (show Int.ofNat XLOG_BLCKSZ = Int.ofNat count from hcount)
      omega
    · rw [if_neg h1] at hcount
      by_cases h2 : tpp + reqLen ≤ endptr
      · rw [if_pos h2] at hcount
        have hc := Int.ofNat.inj (show Int.ofNat (endptr - tpp) = Int.ofNat count from hcount)
        omega
      · rw [if_neg h2] at hcount
        have hc : (-1 : Int) = Int.ofNat count := hcount
        rw [Int.ofNat_eq_natCast] at hc
        omega
  · intro hover
    rw [if_neg (by omega), if_neg (by omega)]
    exact ⟨rfl, rfl⟩

/-- C2 witness: a concrete call where the requested length cannot be
satisfied below the end pointer. -/
theorem c2_witness :
    (∀ count : Nat,
      (pgWaldecoderReadPage ⟨1, some 100, false⟩ 90 20).2 = Int.ofNat count →
      90 + count ≤ 100) ∧
    (pgWaldecoderReadPage ⟨1, some 100, false⟩ 90 20).2 = -1 ∧
    (pgWaldecoderReadPage ⟨1, some 100, false⟩ 90 20).1.endptrReached = true := by
  have h := c2_read_page_clips ⟨1, some 100, false⟩ 90 20 100 rfl (by decide)
  exact ⟨h.1, h.2 (by decide)⟩

/-! ## Page-cache lemmas -/

theorem hashLookup_insert_self (h : PageHash) (k : PageId) (v : List Nat) :
    hashLookup (hashInsert h k v) k = some v := by
  rw [hashLookup, hashInsert, List.find?_cons_of_pos _ (by simp)]

theorem hashLookup_insert_ne (h : PageHash) (k : PageId) (v : List Nat)
    (k2 : PageId) (hne : k2 ≠ k) :
    hashLookup (hashInsert h k v) k2 = hashLookup h k2 := by
  rw [hashLookup, hashInsert, List.find?_cons_of_neg _ (by simp [Ne.symm hne])]
  rfl

/-! ## C1: Insert decoding against a cached page image -/

/-- Concrete insert block carrying no image. -/
def c1Block : DecodedBkpBlock :=
  { rlocator := ⟨1, 2, 3⟩, blkno := 5, hasImage := false, applyImage := false,
    imageBytes := [] }

/-- Concrete heap Insert record (xl_info opcode bits = XLOG_HEAP_INSERT). -/
def c1Record : DecodedXLogRecord :=
  { lsn := 200, header := { xl_rmid := 10, xl_info := 0, xl_xid := 7 },
    maxBlockId := 0, blocks := [c1Block], mainData := [3, 0] }

/-- Page cache holding a previously applied full-page image for the
record's PageId. -/
def c1Hash : PageHash := [(PageId.ofBlock c1Block, [9, 9])]

/-- C1 counterexample: an Insert record processed after an image-bearing
record for its PageId produces exactly one result — but its after-row
field is `None` (as is every other query/row field), refuting the claim
that the after-row field is set to the bytes of the new-tuple slot. -/
theorem c1_counterexample :
    (processCurrentRecord (fun _ => some 42) c1Hash c1Record).2 =
      .res (some
        { lsn := 200
          dboid := 2
          relid := 42
          xid := 7
          redoQuery := none
          revertQuery := none
          rowBefore := none
          rowAfter := none }) ∧
    (∃ d, (processCurrentRecord (fun _ => some 42) c1Hash c1Record).2 =
      .res (some d) ∧ d.rowBefore = none ∧ d.rowAfter = none) := by
  refine ⟨by decide,
    ⟨{ lsn := 200
       dboid := 2
       relid := 42
       xid := 7
       redoQuery := none
       revertQuery := none
       rowBefore := none
       rowAfter := none }, by decide, rfl, rfl⟩⟩

/-- C1 (amended): an Insert heap record processed when the page cache
holds an image for its block-0 PageId produces exactly one result whose
before-row AND after-row fields are both absent (row extraction is not
implemented: `apply_heap_insert` does nothing and the result is built with
all query/row fields `None`); the same record processed before any
image-bearing record for that PageId produces zero results. -/
theorem c1_insert_amended (catalog : RelFileLocator → Option Nat) (hash : PageHash)
    (r : DecodedXLogRecord) (blk : DecodedBkpBlock) (relid : Nat)
    (hrm : r.header.xl_rmid = RM_HEAP_ID) (hmb : ¬r.maxBlockId < 0)
    (hblk : r.blocks.head? = some blk)
    (hni : (blk.hasImage && blk.applyImage) = false)
    (hcat : catalog blk.rlocator = some relid)
    (hop : Nat.land r.header.xl_info XLOG_HEAP_OPMASK = XLOG_HEAP_INSERT) :
    (∀ page, hashLookup hash (PageId.ofBlock blk) = some page →
      processCurrentRecord catalog hash r =
        (hash, .res (some
          { lsn := u64CastSigned r.lsn
            dboid := blk.rlocator.dbOid
            relid := relid
            xid := r.header.xl_xid
            redoQuery := none
            revertQuery := none
            rowBefore := none
            rowAfter := none })))
    ∧ (hashLookup hash (PageId.ofBlock blk) = none →
        processCurrentRecord catalog hash r = (hash, .res none)) := by
  have hrest : restoreFpw blk = none := by
    simp [restoreFpw, hni]
  constructor
  · intro page hpage
    simp only [processCurrentRecord, hrm, ne_eq, not_true_eq_false, if_false, hmb,
      hblk, hrest, hpage, hcat, decodeHeapRecord, hop, if_true]
  · intro hpage
    simp only [processCurrentRecord, hrm, ne_eq, not_true_eq_false, if_false, hmb,
      hblk, hrest, hpage]

/-- C1 witness: the amended claim instantiated at the concrete scenario of
the counterexample — both with and without the cached page image. -/
theorem c1_witness :
    (∀ page, hashLookup c1Hash (PageId.ofBlock c1Block) = some page →
      processCurrentRecord (fun _ => some 42) c1Hash c1Record =
        (c1Hash, .res (some
          { lsn := u64CastSigned c1Record.lsn
            dboid := c1Block.rlocator.dbOid
            relid := 42
            xid := c1Record.header.xl_xid
            redoQuery := none
            revertQuery := none
            rowBefore := none
            rowAfter := none })))
    ∧ (hashLookup c1Hash (PageId.ofBlock c1Block) = none →
        processCurrentRecord (fun _ => some 42) c1Hash c1Record = (c1Hash, .res none)) :=
  c1_insert_amended (fun _ => some 42) c1Hash c1Record c1Block 42 rfl (by decide)
    rfl rfl rfl rfl

/-! ## C4: full-page-image application to the cache -/

/-- Concrete heap record with two block references; only block 1 carries
an image. -/
def c4Blk0 : DecodedBkpBlock :=
  { rlocator := ⟨1, 2, 3⟩, blkno := 0, hasImage := false, applyImage := false,
    imageBytes := [] }

def c4Blk1 : DecodedBkpBlock :=
  { rlocator := ⟨1, 2, 3⟩, blkno := 1, hasImage := true, applyImage := true,
    imageBytes := [7, 7] }

def c4Record : DecodedXLogRecord :=
  { lsn := 300, header := { xl_rmid := 10, xl_info := 0, xl_xid := 8 },
    maxBlockId := 1, blocks := [c4Blk0, c4Blk1], mainData := [] }

/-- C4 counterexample: a processed heap record whose block reference 1
carries both `has_image` and `apply_image`, yet after processing the cache
entry for block 1's PageId is still absent (the cache is unchanged): the
code only ever applies the image of block 0 (`TODO: Iterate through all
blocks and apply fpw`), refuting the claim for every block reference. -/
theorem c4_counterexample :
    processCurrentRecord (fun _ => some 42) [] c4Record = ([], .res none) ∧
    c4Blk1.hasImage = true ∧ c4Blk1.applyImage = true ∧
    hashLookup (processCurrentRecord (fun _ => some 42) [] c4Record).1
      (PageId.ofBlock c4Blk1) = none := by
  exact ⟨by decide, by decide, by decide, by decide⟩

/-- C4 (amended): for every processed heap-rmgr record with at least one
block, only block reference 0 is consulted: when block 0 carries both
`has_image` and `apply_image` the cache entry keyed by block 0's PageId is
completely overwritten with the embedded image bytes (replacing any prior
image for that key) and every other key is untouched; when block 0 lacks
either flag the whole cache is left unchanged — in particular block
references other than 0 never modify the cache. -/
theorem c4_fpw_cache_amended (catalog : RelFileLocator → Option Nat) (hash : PageHash)
    (r : DecodedXLogRecord) (blk : DecodedBkpBlock)
    (hrm : r.header.xl_rmid = RM_HEAP_ID) (hmb : ¬r.maxBlockId < 0)
    (hblk : r.blocks.head? = some blk) :
    (blk.hasImage = true → blk.applyImage = true →
      hashLookup (processCurrentRecord catalog hash r).1 (PageId.ofBlock blk) =
        some blk.imageBytes ∧
      (∀ k, k ≠ PageId.ofBlock blk →
        hashLookup (processCurrentRecord catalog hash r).1 k = hashLookup hash k))
    ∧ ((blk.hasImage && blk.applyImage) = false →
        (processCurrentRecord catalog hash r).1 = hash) := by
  constructor
  · intro hhi hai
    have hrest : restoreFpw blk = some blk.imageBytes := by
      simp [restoreFpw, hhi, hai]
    have hfst : (processCurrentRecord catalog hash r).1 =
        hashInsert hash (PageId.ofBlock blk) blk.imageBytes := by
      simp only [processCurrentRecord, hrm, ne_eq, not_true_eq_false, if_false, hmb,
        hblk, hrest]
      rw [hashLookup_insert_self]
      cases hcat : catalog blk.rlocator with
      | none => simp
      | some relid => simp
    rw [hfst]
    exact ⟨hashLookup_insert_self _ _ _,
      fun k hk => hashLookup_insert_ne _ _ _ _ hk⟩
  · intro hni
    have hrest : restoreFpw blk = none := by
      simp [restoreFpw, hni]
    simp only [processCurrentRecord, hrm, ne_eq, not_true_eq_false, if_false, hmb,
      hblk, hrest]
    cases hpage : hashLookup hash (PageId.ofBlock blk) with
    | none => simp
    | some page =>
      cases hcat : catalog blk.rlocator with
      | none => simp
      | some relid => simp

/-- Concrete heap record whose block 0 is the image-bearing block. -/
def c4OnlyImageRecord : DecodedXLogRecord :=
  { lsn := 301, header := { xl_rmid := 10, xl_info := 0, xl_xid := 9 },
    maxBlockId := 0, blocks := [c4Blk1], mainData := [] }

/-- C4 witness: the amended claim instantiated at a concrete heap record
whose block 0 carries an image. -/
theorem c4_witness :
    ((c4Blk1.hasImage = true → c4Blk1.applyImage = true →
      hashLookup (processCurrentRecord (fun _ => some 42) [] c4OnlyImageRecord).1
        (PageId.ofBlock c4Blk1) = some c4Blk1.imageBytes ∧
      (∀ k, k ≠ PageId.ofBlock c4Blk1 →
        hashLookup (processCurrentRecord (fun _ => some 42) [] c4OnlyImageRecord).1 k =
          hashLookup ([] : PageHash) k))
    ∧ ((c4Blk1.hasImage && c4Blk1.applyImage) = false →
        (processCurrentRecord (fun _ => some 42) [] c4OnlyImageRecord).1 = [])) :=
  c4_fpw_cache_amended (fun _ => some 42) [] c4OnlyImageRecord c4Blk1 rfl (by decide) rfl

/-! ## C7: Delete decoding -/

/-- Concrete delete block carrying its own full-page image (so the decode
path is reached). -/
def c7Block : DecodedBkpBlock :=
  { rlocator := ⟨1, 2, 3⟩, blkno := 0, hasImage := true, applyImage := true,
    imageBytes := [1, 2, 3] }

/-- Concrete heap Delete record (xl_info opcode bits = XLOG_HEAP_DELETE). -/
def c7Record : DecodedXLogRecord :=
  { lsn := 100, header := { xl_rmid := 10, xl_info := 0x10, xl_xid := 7 },
    maxBlockId := 0, blocks := [c7Block], mainData := [6, 0] }

/-- C7 (code bug): the spec requires a Delete record decodable against a
cached page image to produce a change with the before-row extracted from
the target slot; the decoder instead panics at
`todo!("Heap update and delete")` — evaluated here on a concrete Delete
record whose page image is available (restored from its own FPW). -/
theorem c7_delete_crashes :
    processCurrentRecord (fun _ => some 42) [] c7Record =
      ([(PageId.ofBlock c7Block, [1, 2, 3])],
        .crash "not yet implemented: Heap update and delete") := by
  decide

/-! ## Session-level lemmas for the lazy sequence -/

/-- Once `move_to_next_record` reports the end, the session state it left
behind is a fixpoint: calling it again reads no record and reports the end
again (the read position did not advance, and the `endptr_reached` flag is
sticky). -/
theorem moveToNextRecord_end_fix (log : Nat → LogEntry) (st st1 : SessionState)
    (orec : Option DecodedXLogRecord)
    (h : moveToNextRecord log st = (st1, orec, true)) :
    orec = none ∧ moveToNextRecord log st1 = (st1, none, true) := by
  cases hlog : log st.readPos with
  | bad msg =>
    have hx : xLogReadRecordModel log st = (st, none, some msg) := by
      rw [xLogReadRecordModel, hlog]
    have hm : moveToNextRecord log st = (st, none, true) := by
      by_cases he : st.endptrReached = true
      · simp [moveToNextRecord, hx, he]
      · simp [moveToNextRecord, hx, he]
    rw [hm] at h
    simp only [Prod.mk.injEq] at h
    obtain ⟨rfl, rfl, -⟩ := h
    exact ⟨rfl, hm⟩
  | record r endPos =>
    cases hep : st.endptr with
    | none =>
      have hx : xLogReadRecordModel log st =
          ({ st with readPos := endPos }, some r, none) := by
        rw [xLogReadRecordModel, hlog, hep]
      have hm : moveToNextRecord log st =
          ({ st with readPos := endPos }, some r, false) := by
        simp [moveToNextRecord, hx]
      rw [hm] at h
      simp only [Prod.mk.injEq] at h
      exact absurd h.2.2 (by simp)
    | some ep =>
      by_cases hle : endPos ≤ ep
      · have hx : xLogReadRecordModel log st =
            ({ st with readPos := endPos }, some r, none) := by
          rw [xLogReadRecordModel, hlog, hep]
          simp [hle]
        have hm : moveToNextRecord log st =
            ({ st with readPos := endPos }, some r, false) := by
          simp [moveToNextRecord, hx]
        rw [hm] at h
        simp only [Prod.mk.injEq] at h
        exact absurd h.2.2 (by simp)
      · have hx : xLogReadRecordModel log st =
            ({ st with endptrReached := true }, none, none) := by
          rw [xLogReadRecordModel, hlog, hep]
          simp [hle]
        have hm : moveToNextRecord log st =
            ({ st with endptrReached := true }, none, true) := by
          simp [moveToNextRecord, hx]
        rw [hm] at h
        simp only [Prod.mk.injEq] at h
        obtain ⟨h1, rfl, -⟩ := h
        subst h1
        have hx2 : xLogReadRecordModel log { st with endptrReached := true } =
            ({ st with endptrReached := true }, none, none) := by
          rw [xLogReadRecordModel]
          simp only
          rw [hlog]
          simp [hep, hle]
        have hm2 : moveToNextRecord log { st with endptrReached := true } =
            ({ st with endptrReached := true }, none, true) := by
          simp [moveToNextRecord, hx2]
        exact ⟨rfl, hm2⟩

/-- When a `next()` call reports the sequence finished, the state it
leaves behind satisfies the `move_to_next_record` fixpoint. -/
theorem decoderNext_finished_move (catalog : RelFileLocator → Option Nat)
    (log : Nat → LogEntry) : ∀ (f : Nat) (st st2 : DecoderState),
    decoderNext catalog log f st = (st2, .finished) →
    moveToNextRecord log st2.session = (st2.session, none, true) := by
  intro f
  induction f with
  | zero =>
    intro st st2 h
    rw [decoderNext] at h
    simp only [Prod.mk.injEq] at h
    exact absurd h.2 (by simp)
  | succ f ih =>
    intro st st2 h
    rw [decoderNext] at h
    rcases hm : moveToNextRecord log st.session with ⟨s1, orec, ended⟩
    rw [hm] at h
    cases ended with
    | true =>
      simp only [if_true] at h
      simp only [Prod.mk.injEq] at h
      obtain ⟨h1, -⟩ := h
      obtain ⟨-, hfix⟩ := moveToNextRecord_end_fix log st.session s1 orec hm
      rw [← h1]
      exact hfix
    | false =>
      simp only [Bool.false_eq_true, if_false] at h
      cases orec with
      | none =>
        simp only [Prod.mk.injEq] at h
        exact absurd h.2 (by simp)
      | some r =>
        simp only at h
        rcases hp : processCurrentRecord catalog st.hash r with ⟨h1, out⟩
        rw [hp] at h
        cases out with
        | crash msg =>
          simp only [Prod.mk.injEq] at h
          exact absurd h.2 (by simp)
        | res od =>
          cases od with
          | some d =>
            simp only [Prod.mk.injEq] at h
            exact absurd h.2 (by simp)
          | none =>
            simp only at h
            exact ih _ _ h

/-! ## C9: idempotence after the sequence has ended -/

/-- C9: once a `next()` call has reported the sequence finished (the
configured end pointer was reached, or the end of valid log / a read
error ended the sequence), every subsequent `next()` call — for any
positive recursion bound — returns the no-more-records outcome again,
leaves the state unchanged, and raises no new error.  The postgres record
assembler `XLogReadRecord` is not part of this repository's sources and is
modelled from the spec (§4.2/§4.3) by `xLogReadRecordModel`. -/
theorem c9_next_after_end_idempotent (catalog : RelFileLocator → Option Nat)
    (log : Nat → LogEntry) (f : Nat) (st st2 : DecoderState)
    (h : decoderNext catalog log f st = (st2, .finished)) :
    ∀ g : Nat, decoderNext catalog log (g + 1) st2 = (st2, .finished) := by
  intro g
  have hmov := decoderNext_finished_move catalog log f st st2 h
  rw [decoderNext, hmov]
  rfl

/-- End-of-log source, end-reporting catalog and initial state used by the
C9 witness. -/
def c9Log : Nat → LogEntry := fun _ => .bad "end of WAL"

def c9Cat : RelFileLocator → Option Nat := fun _ => none

def c9St : DecoderState := ⟨⟨0, none, false⟩, []⟩

/-- C9 witness: after one call ends the sequence at end-of-log, a later
call returns finished again on the unchanged state. -/
theorem c9_witness : decoderNext c9Cat c9Log 4 c9St = (c9St, .finished) :=
  c9_next_after_end_idempotent c9Cat c9Log 1 c9St c9St (by rfl) 3

/-! ## C3: records without a cached page image are skipped -/

/-- C3: a record whose block-0 PageId has no cached page image (and which
carries no applicable image itself) produces no result
(`process_current_record` returns `None` and leaves the cache unchanged),
does not end or error the sequence, and the `next()` loop simply continues
at the position after the record — so whatever the remaining log produces
(in particular the next decodable record) is still produced.  The postgres
record assembler is modelled from the spec as in C9. -/
theorem c3_missing_page_skips (catalog : RelFileLocator → Option Nat)
    (log : Nat → LogEntry) (f : Nat) (st : DecoderState)
    (r : DecodedXLogRecord) (blk : DecodedBkpBlock) (endPos : Nat)
    (hlog : log st.session.readPos = .record r endPos)
    (hep : ∀ ep, st.session.endptr = some ep → endPos ≤ ep)
    (hrm : r.header.xl_rmid = RM_HEAP_ID) (hmb : ¬r.maxBlockId < 0)
    (hblk : r.blocks.head? = some blk)
    (hni : (blk.hasImage && blk.applyImage) = false)
    (hmiss : hashLookup st.hash (PageId.ofBlock blk) = none) :
    processCurrentRecord catalog st.hash r = (st.hash, .res none)
    ∧ decoderNext catalog log (f + 1) st =
        decoderNext catalog log f ⟨{ st.session with readPos := endPos }, st.hash⟩
    ∧ ∀ (st2 : DecoderState) (d : DecodedResult),
        decoderNext catalog log f ⟨{ st.session with readPos := endPos }, st.hash⟩ =
          (st2, .item d) →
        decoderNext catalog log (f + 1) st = (st2, .item d) := by
  have hrest : restoreFpw blk = none := by
    simp [restoreFpw, hni]
  have hproc : processCurrentRecord catalog st.hash r = (st.hash, .res none) := by
    simp only [processCurrentRecord, hrm, ne_eq, not_true_eq_false, if_false, hmb,
      hblk, hrest, hmiss]
  have hx : xLogReadRecordModel log st.session =
      (⟨endPos, st.session.endptr, st.session.endptrReached⟩, some r, none) := by
    cases hepc : st.session.endptr with
    | none => simp [xLogReadRecordModel, hlog, hepc]
    | some ep => simp [xLogReadRecordModel, hlog, hepc, hep ep hepc]
  have hmove : moveToNextRecord log st.session =
      (⟨endPos, st.session.endptr, st.session.endptrReached⟩, some r, false) := by
    simp [moveToNextRecord, hx]
  have hnext : decoderNext catalog log (f + 1) st =
      decoderNext catalog log f ⟨{ st.session with readPos := endPos }, st.hash⟩ := by
    rw [decoderNext, hmove]
    simp only [hproc]
    rfl
  exact ⟨hproc, hnext, fun st2 d hrest2 => by rw [hnext, hrest2]⟩

/-- Concrete input data for the C3 witness: a heap record with no image
and no cached page, followed by a decodable image-bearing record. -/
def c3Blk : DecodedBkpBlock :=
  { rlocator := ⟨1, 2, 3⟩, blkno := 0, hasImage := false, applyImage := false,
    imageBytes := [] }

def c3Rec : DecodedXLogRecord :=
  { lsn := 10, header := { xl_rmid := 10, xl_info := 0, xl_xid := 5 },
    maxBlockId := 0, blocks := [c3Blk], mainData := [] }

def c3GoodBlk : DecodedBkpBlock :=
  { rlocator := ⟨1, 2, 3⟩, blkno := 0, hasImage := true, applyImage := true,
    imageBytes := [7, 7] }

def c3GoodRec : DecodedXLogRecord :=
  { lsn := 20, header := { xl_rmid := 10, xl_info := 0, xl_xid := 6 },
    maxBlockId := 0, blocks := [c3GoodBlk], mainData := [] }

def c3Log : Nat → LogEntry := fun n =>
  if n = 0 then .record c3Rec 16
  else if n = 16 then .record c3GoodRec 32
  else .bad "end of WAL"

def c3Cat : RelFileLocator → Option Nat := fun _ => some 42

def c3St : DecoderState := ⟨⟨0, none, false⟩, []⟩

/-- C3 witness: the skip property instantiated on the concrete log. -/
theorem c3_witness :
    processCurrentRecord c3Cat c3St.hash c3Rec = (c3St.hash, .res none)
    ∧ decoderNext c3Cat c3Log 2 c3St =
        decoderNext c3Cat c3Log 1 ⟨{ c3St.session with readPos := 16 }, c3St.hash⟩
    ∧ ∀ (st2 : DecoderState) (d : DecodedResult),
        decoderNext c3Cat c3Log 1 ⟨{ c3St.session with readPos := 16 }, c3St.hash⟩ =
          (st2, .item d) →
        decoderNext c3Cat c3Log 2 c3St = (st2, .item d) :=
  c3_missing_page_skips c3Cat c3Log 1 c3St c3Rec c3Blk 16 rfl
    (fun ep h => Option.noConfusion h) rfl (by decide) rfl rfl rfl

end PgWalDecoder
